import Mathlib

/-!
Shallow embedding of `src/fuzzy.ts` (wolfd/fuzzysort).

Strings are modelled at code-unit granularity (the library's documented
granularity) as lists of character codes (`List Nat`); JavaScript's
`undefined` array reads are modelled with `Option`, and the JavaScript
`Map` caches with association lists threaded explicitly through the
functions that mutate them.  The single unbounded loop of the source
(`while (true)` in `algorithm`) is modelled with explicit fuel: a result
of `none` means the loop has not produced an answer within the given
number of iterations.
-/

set_option maxHeartbeats 1000000
set_option maxRecDepth 8000

namespace Fuzzysort

/-- Cap on search string length for caching (src/fuzzy.ts line 16). -/
def MAX_SEARCH_STRING_LENGTH_FOR_CACHING : Nat := 999

/-- Cap on target string length for caching (src/fuzzy.ts line 17). -/
def MAX_TARGET_STRING_LENGTH_FOR_CACHING : Nat := 999

/-- Options record (src/fuzzy.ts lines 19-21); the TS field is optional,
hence `Option Bool`. -/
structure IFuzzyOptions where
  allowTypo : Option Bool
deriving Repr, DecidableEq

/-- A prepared search is the list of lowercase character codes
(src/fuzzy.ts line 27). -/
abbrev PreparedSearch := List Nat

/-- Prepared target record (src/fuzzy.ts lines 31-40).  The mutable
scratch fields `score`, `indexes`, `obj` are `Option`-typed and start
out as `null` (`none`). -/
structure PreparedTarget where
  target : List Nat
  score : Option Int
  indexes : Option (List Nat)
  obj : Option Unit
  targetLowerCodes : List Nat
  nextBeginningIndexes : List Nat
deriving Repr, DecidableEq

/-- Result record a completed match would produce; the truncated
`algorithm` of the source never actually constructs one. -/
structure MatchResult where
  score : Int
  target : List Nat
  indexes : List Nat
deriving Repr, DecidableEq

/-- ASCII lowercase mapping of one character code, the fragment of
`String.prototype.toLowerCase` exercised at ASCII code points. -/
def toLowerCode (c : Nat) : Nat :=
  if 65 ≤ c ∧ c ≤ 90 then c + 32 else c

/-- prepareLowerCodes (src/fuzzy.ts lines 152-161): one lowercase code
per input position; the output array is pre-sized to the input length
and filled positionally, so it has exactly the input's length. -/
def prepareLowerCodes (search : List Nat) : List Nat :=
  search.map toLowerCode

/-- Uppercase test of src/fuzzy.ts line 171: the 26 Latin capitals. -/
def isUpperCode (c : Nat) : Bool :=
  decide (65 ≤ c) && decide (c ≤ 90)

/-- Alphanumeric test of src/fuzzy.ts lines 172-175: ASCII letters and
digits. -/
def isAlphanumCode (c : Nat) : Bool :=
  isUpperCode c || (decide (97 ≤ c) && decide (c ≤ 122)) ||
    (decide (48 ≤ c) && decide (c ≤ 57))

/-- Loop body of prepareBeginningIndexes (src/fuzzy.ts lines 169-182):
`i0` is the index of the head of `codes` in the original string, and
`wasUpper` / `wasAlphanum` classify the character before it (`false`
before position 0). -/
def prepareBeginningIndexesAux : List Nat → Nat → Bool → Bool → List Nat
  | [], _, _, _ => []
  | targetCode :: rest, i0, wasUpper, wasAlphanum =>
    let isUpper := isUpperCode targetCode
    let isAlphanum := isAlphanumCode targetCode
    let isBeginning := (isUpper && !wasUpper) || !wasAlphanum || !isAlphanum
    if isBeginning then
      i0 :: prepareBeginningIndexesAux rest (i0 + 1) isUpper isAlphanum
    else
      prepareBeginningIndexesAux rest (i0 + 1) isUpper isAlphanum

/-- prepareBeginningIndexes (src/fuzzy.ts lines 163-184). -/
def prepareBeginningIndexes (target : List Nat) : List Nat :=
  prepareBeginningIndexesAux target 0 false false

/-- Loop of prepareNextBeginningIndexes (src/fuzzy.ts lines 192-200).
`rem` is the number of remaining iterations (`targetLen - i`),
`lastIsBeginning` is `beginningIndexes[lastIsBeginningI]` (`none` models
JavaScript `undefined`, for which `undefined > i` is false). -/
def nextBegAux (beginningIndexes : List Nat) (targetLen : Nat) :
    Nat → Nat → Nat → Option Nat → List Nat
  | 0, _, _, _ => []
  | rem + 1, i, lastIsBeginningI, lastIsBeginning =>
    match lastIsBeginning with
    | some b =>
      if i < b then
        b :: nextBegAux beginningIndexes targetLen rem (i + 1) lastIsBeginningI
          (some b)
      else
        let lb := beginningIndexes.get? (lastIsBeginningI + 1)
        lb.getD targetLen ::
          nextBegAux beginningIndexes targetLen rem (i + 1)
            (lastIsBeginningI + 1) lb
    | none =>
      let lb := beginningIndexes.get? (lastIsBeginningI + 1)
      lb.getD targetLen ::
        nextBegAux beginningIndexes targetLen rem (i + 1)
          (lastIsBeginningI + 1) lb

/-- prepareNextBeginningIndexes (src/fuzzy.ts lines 186-202). -/
def prepareNextBeginningIndexes (target : List Nat) : List Nat :=
  let targetLen := target.length
  let beginningIndexes := prepareBeginningIndexes target
  nextBegAux beginningIndexes targetLen targetLen 0 0 (beginningIndexes.get? 0)

/-- prepareSearch (src/fuzzy.ts lines 137-139). -/
def prepareSearch (search : List Nat) : PreparedSearch :=
  prepareLowerCodes search

/-- prepareTarget (src/fuzzy.ts lines 141-150). -/
def prepareTarget (target : List Nat) : PreparedTarget :=
  { target := target
    score := none
    indexes := none
    obj := none
    targetLowerCodes := prepareLowerCodes target
    nextBeginningIndexes := prepareNextBeginningIndexes target }

/-- Association-list model of a JavaScript `Map`: `get` returns the
value stored for an exactly equal key. -/
def cacheLookup {β : Type} (key : List Nat) : List (List Nat × β) → Option β
  | [] => none
  | (k, v) :: rest => if k = key then some v else cacheLookup key rest

/-- The process-wide target cache (src/fuzzy.ts line 42), threaded
explicitly. -/
abbrev TargetCache := List (List Nat × PreparedTarget)

/-- The process-wide search cache (src/fuzzy.ts line 29), threaded
explicitly. -/
abbrev SearchCache := List (List Nat × PreparedSearch)

/-- getPreparedTarget (src/fuzzy.ts lines 111-122): over-long targets
are prepared fresh and the cache is untouched; otherwise a hit returns
the stored record and a miss stores the fresh record before returning. -/
def getPreparedTarget (cache : TargetCache) (target : List Nat) :
    PreparedTarget × TargetCache :=
  if MAX_TARGET_STRING_LENGTH_FOR_CACHING < target.length then
    (prepareTarget target, cache)
  else
    match cacheLookup target cache with
    | some cachedTarget => (cachedTarget, cache)
    | none =>
      let preparedTarget := prepareTarget target
      (preparedTarget, (target, preparedTarget) :: cache)

/-- getPreparedSearch (src/fuzzy.ts lines 124-135). -/
def getPreparedSearch (cache : SearchCache) (search : List Nat) :
    PreparedSearch × SearchCache :=
  if MAX_SEARCH_STRING_LENGTH_FOR_CACHING < search.length then
    (prepareSearch search, cache)
  else
    match cacheLookup search cache with
    | some cachedSearch => (cachedSearch, cache)
    | none =>
      let preparedSearch := prepareSearch search
      (preparedSearch, (search, preparedSearch) :: cache)

/-- State of the `while (true)` loop of `algorithm` (src/fuzzy.ts lines
89-108); `matchesSimple` holds the first `matchesSimpleLen` scratch
entries written this call. -/
structure LoopState where
  searchIndex : Nat
  targetIndex : Nat
  matchesSimple : List Nat
deriving Repr, DecidableEq

/-- One iteration of the loop body (src/fuzzy.ts lines 101-108):
`searchLowerCode` is `preparedSearch[0]`, never reassigned in the
truncated source; on a match the target index is recorded and the
search index advanced.  No statement of the body exits the loop or
advances `targetIndex`. -/
def loopStep (preparedSearch targetLowerCodes : List Nat)
    (st : LoopState) : LoopState :=
  let searchLowerCode := preparedSearch.get? 0
  let isMatch := searchLowerCode = targetLowerCodes.get? st.targetIndex
  if isMatch then
    { searchIndex := st.searchIndex + 1
      targetIndex := st.targetIndex
      matchesSimple := st.matchesSimple ++ [st.targetIndex] }
  else
    st

/-- Fuel-bounded run of the loop: `none` means no answer was produced
within `fuel` iterations.  The body contains no `return` or `break`, so
no iteration count can yield an answer. -/
def loopRun (preparedSearch targetLowerCodes : List Nat) :
    Nat → LoopState → Option (Option MatchResult)
  | 0, _ => none
  | fuel + 1, st =>
    loopRun preparedSearch targetLowerCodes fuel
      (loopStep preparedSearch targetLowerCodes st)

/-- algorithm (src/fuzzy.ts lines 78-109): returns `some none` for the
`targetLen === 0` early `return;`, and otherwise enters the exitless
scan loop.  The outer `Option` is the fuel bound: `none` means the call
has not returned within `fuel` iterations. -/
def algorithmFuel (fuel : Nat) (preparedSearch : PreparedSearch)
    (preparedTarget : PreparedTarget) : Option (Option MatchResult) :=
  let targetLowerCodes := preparedTarget.targetLowerCodes
  let targetLen := targetLowerCodes.length
  if targetLen = 0 then
    some none
  else
    loopRun preparedSearch targetLowerCodes fuel
      { searchIndex := 0, targetIndex := 0, matchesSimple := [] }

/-- Resolution of the allowTypo flag (src/fuzzy.ts lines 68-71):
call options first, then instance options, then `false`. -/
def resolveAllowTypo (options instOpts : Option IFuzzyOptions) : Bool :=
  (match options with
   | some o => o.allowTypo.getD false
   | none => false) ||
  (match instOpts with
   | some o => o.allowTypo.getD false
   | none => false)

/-- Both caches of the module, threaded through `single`. -/
structure Caches where
  searchCache : SearchCache
  targetCache : TargetCache
deriving Repr, DecidableEq

/-- single (src/fuzzy.ts lines 49-76) on string arguments; `none`
arguments model absent (`undefined`) arguments, and an empty string is
falsy exactly like an absent one.  `some none` in the first component
is a returned `null`/`undefined` (no-match); `none` means the call has
not returned within `fuel` loop iterations.  Line 73 selects
`this.algorithm` on both sides of the `allowTypo` conditional. -/
def singleFuel (fuel : Nat) (caches : Caches)
    (search target : Option (List Nat))
    (options instOpts : Option IFuzzyOptions) :
    Option (Option MatchResult) × Caches :=
  match search with
  | none => (some none, caches)
  | some s =>
    if s.length = 0 then (some none, caches)
    else
      let ps := getPreparedSearch caches.searchCache s
      let caches1 : Caches := ⟨ps.2, caches.targetCache⟩
      match target with
      | none => (some none, caches1)
      | some t =>
        if t.length = 0 then (some none, caches1)
        else
          let pt := getPreparedTarget caches1.targetCache t
          let caches2 : Caches := ⟨caches1.searchCache, pt.2⟩
          let allowTypo := resolveAllowTypo options instOpts
          let algorithm := if allowTypo then algorithmFuel else algorithmFuel
          (algorithm fuel ps.1 pt.1, caches2)

/-- Subsequence test, formalising the claims' "in order, possibly
non-contiguous" premise. -/
def isSubsequence : List Nat → List Nat → Bool
  | [], _ => true
  | _ :: _, [] => false
  | a :: as, b :: bs =>
    if a = b then isSubsequence as bs else isSubsequence (a :: as) bs

/-- The scan loop's body contains no exit, so no iteration budget makes
it produce an answer. -/
theorem loopRun_eq_none (preparedSearch targetLowerCodes : List Nat) :
    ∀ (fuel : Nat) (st : LoopState),
      loopRun preparedSearch targetLowerCodes fuel st = none := by
  intro fuel
  induction fuel with
  | zero => intro st; rfl
  | succ n ih => intro st; exact ih _

/-- Every entry of `nextBegAux` output is one loop iteration, so the
output length is the iteration count. -/
theorem nextBegAux_length (B : List Nat) (len : Nat) :
    ∀ (rem i lastI : Nat) (lb : Option Nat),
      (nextBegAux B len rem i lastI lb).length = rem := by
  intro rem
  induction rem with
  | zero => intro i lastI lb; rfl
  | succ n ih =>
    intro i lastI lb
    cases lb with
    | none => simp [nextBegAux, ih]
    | some b =>
      by_cases h : i < b
      · simp [nextBegAux, h, ih]
      · simp [nextBegAux, h, ih]

/-- Claim C2: the spec says `single` terminates and produces a result
for every pair of string inputs.  The code fails this: on search "a"
and target "b" the call enters the `while (true)` loop of `algorithm`,
whose body never advances `targetIndex` and contains no exit statement,
so for every iteration bound the call has produced no result. -/
theorem single_a_b_never_returns :
    ∀ fuel : Nat,
      (singleFuel fuel ⟨[], []⟩ (some [97]) (some [98]) none none).1 = none := by
  intro fuel
  simp [singleFuel, getPreparedSearch, getPreparedTarget, cacheLookup,
    MAX_SEARCH_STRING_LENGTH_FOR_CACHING, MAX_TARGET_STRING_LENGTH_FOR_CACHING,
    prepareSearch, prepareTarget, prepareLowerCodes, toLowerCode,
    resolveAllowTypo, algorithmFuel, loopRun_eq_none]

/-- Claim C1: the spec says `single` returns a match whenever the search
is an in-order subsequence of the target.  The code fails this: with
search "ab" and target "axb" (a subsequence, as the first conjunct
checks), the exitless scan loop never returns, so no match is ever
produced for any iteration bound. -/
theorem single_subsequence_no_result :
    isSubsequence (prepareLowerCodes [97, 98]) (prepareLowerCodes [97, 120, 98]) =
      true ∧
    ∀ fuel : Nat,
      (singleFuel fuel ⟨[], []⟩ (some [97, 98]) (some [97, 120, 98])
          none none).1 = none := by
  refine ⟨by decide, ?_⟩
  intro fuel
  simp [singleFuel, getPreparedSearch, getPreparedTarget, cacheLookup,
    MAX_SEARCH_STRING_LENGTH_FOR_CACHING, MAX_TARGET_STRING_LENGTH_FOR_CACHING,
    prepareSearch, prepareTarget, prepareLowerCodes, toLowerCode,
    resolveAllowTypo, algorithmFuel, loopRun_eq_none]

/-- Claim C3: the spec says `single('test','test')` returns a match with
score 0.  The code fails this: the call enters the exitless scan loop
and never returns for any iteration bound, so in particular it never
produces a score. -/
theorem single_test_test_no_result :
    ∀ fuel : Nat,
      (singleFuel fuel ⟨[], []⟩ (some [116, 101, 115, 116])
          (some [116, 101, 115, 116]) none none).1 = none := by
  intro fuel
  simp [singleFuel, getPreparedSearch, getPreparedTarget, cacheLookup,
    MAX_SEARCH_STRING_LENGTH_FOR_CACHING, MAX_TARGET_STRING_LENGTH_FOR_CACHING,
    prepareSearch, prepareTarget, prepareLowerCodes, toLowerCode,
    resolveAllowTypo, algorithmFuel, loopRun_eq_none]

/-- Claim C6: `single` returns no-match (and in particular returns,
without throwing) whenever the search is empty or absent or the target
is empty or absent, for every fuel, cache state and option record. -/
theorem single_edge_cases_no_match (fuel : Nat) (caches : Caches)
    (search target : Option (List Nat))
    (options instOpts : Option IFuzzyOptions)
    (h : search = none ∨ search = some [] ∨ target = none ∨ target = some []) :
    (singleFuel fuel caches search target options instOpts).1 = some none := by
  rcases h with h | h | h | h
  · subst h; rfl
  · subst h; rfl
  · subst h
    cases search with
    | none => rfl
    | some s =>
      by_cases hs : s.length = 0
      · simp [singleFuel, hs]
      · simp [singleFuel, hs]
  · subst h
    cases search with
    | none => rfl
    | some s =>
      by_cases hs : s.length = 0
      · simp [singleFuel, hs]
      · simp [singleFuel, hs]

/-- Closed instance of the edge-case theorem: empty search against a
non-empty target is a returned no-match already at fuel 0. -/
theorem single_edge_cases_no_match_witness :
    (singleFuel 0 ⟨[], []⟩ (some []) (some [97]) none none).1 = some none :=
  single_edge_cases_no_match 0 ⟨[], []⟩ (some []) (some [97]) none none
    (Or.inr (Or.inl rfl))

/-- Claim C9: line 73 of the source selects the same `algorithm` on both
sides of the `allowTypo` conditional, so `single`'s entire output
(result and caches) is independent of both option records — in
particular it is unchanged by enabling `allowTypo` on any input that
matches without typos; and when neither the call options nor the
instance options set `allowTypo`, the resolved flag is `false`. -/
theorem single_allowTypo_irrelevant_and_default :
    (∀ (fuel : Nat) (caches : Caches) (search target : Option (List Nat))
        (o1 io1 o2 io2 : Option IFuzzyOptions),
      singleFuel fuel caches search target o1 io1 =
        singleFuel fuel caches search target o2 io2) ∧
    resolveAllowTypo none none = false ∧
    resolveAllowTypo (some ⟨none⟩) (some ⟨none⟩) = false := by
  refine ⟨?_, rfl, rfl⟩
  intro fuel caches search target o1 io1 o2 io2
  simp only [singleFuel, ite_self]

/-- Claim C8: both derived sequences of a prepared target have exactly
the original string's length. -/
theorem prepareTarget_sequence_lengths (target : List Nat) :
    (prepareTarget target).targetLowerCodes.length = target.length ∧
    (prepareTarget target).nextBeginningIndexes.length = target.length := by
  constructor
  · simp [prepareTarget, prepareLowerCodes]
  · simp [prepareTarget, prepareNextBeginningIndexes, nextBegAux_length]

/-- Claim C7: for a string at or below the 999-character cap, a cache
miss builds the prepared form, stores it before returning, and a
subsequent preparation of the same string returns the stored form with
the cache unchanged; for a longer string every call builds a fresh
prepared form and leaves the cache unchanged — for the target cache and
the search cache alike. -/
theorem prepared_caching (tc : TargetCache) (sc : SearchCache)
    (t s : List Nat) :
    (t.length ≤ MAX_TARGET_STRING_LENGTH_FOR_CACHING →
      cacheLookup t tc = none →
      (getPreparedTarget tc t).1 = prepareTarget t ∧
      cacheLookup t (getPreparedTarget tc t).2 = some (prepareTarget t) ∧
      getPreparedTarget (getPreparedTarget tc t).2 t =
        (prepareTarget t, (getPreparedTarget tc t).2)) ∧
    (MAX_TARGET_STRING_LENGTH_FOR_CACHING < t.length →
      getPreparedTarget tc t = (prepareTarget t, tc)) ∧
    (s.length ≤ MAX_SEARCH_STRING_LENGTH_FOR_CACHING →
      cacheLookup s sc = none →
      (getPreparedSearch sc s).1 = prepareSearch s ∧
      cacheLookup s (getPreparedSearch sc s).2 = some (prepareSearch s) ∧
      getPreparedSearch (getPreparedSearch sc s).2 s =
        (prepareSearch s, (getPreparedSearch sc s).2)) ∧
    (MAX_SEARCH_STRING_LENGTH_FOR_CACHING < s.length →
      getPreparedSearch sc s = (prepareSearch s, sc)) := by
  refine ⟨?_, ?_, ?_, ?_⟩
  · intro hlen hmiss
    have hnot : ¬ MAX_TARGET_STRING_LENGTH_FOR_CACHING < t.length :=
      Nat.not_lt.mpr hlen
    refine ⟨?_, ?_, ?_⟩ <;>
      simp [getPreparedTarget, hnot, hmiss, cacheLookup]
  · intro hlen
    simp [getPreparedTarget, hlen]
  · intro hlen hmiss
    have hnot : ¬ MAX_SEARCH_STRING_LENGTH_FOR_CACHING < s.length :=
      Nat.not_lt.mpr hlen
    refine ⟨?_, ?_, ?_⟩ <;>
      simp [getPreparedSearch, hnot, hmiss, cacheLookup]
  · intro hlen
    simp [getPreparedSearch, hlen]

/-- Closed instance of the caching theorem: a one-character target and
search are stored on a miss and served back, and 1000-character strings
bypass both caches. -/
theorem prepared_caching_witness :
    ((getPreparedTarget [] [98]).1 = prepareTarget [98] ∧
      cacheLookup [98] (getPreparedTarget [] [98]).2 =
        some (prepareTarget [98]) ∧
      getPreparedTarget (getPreparedTarget [] [98]).2 [98] =
        (prepareTarget [98], (getPreparedTarget [] [98]).2)) ∧
    getPreparedTarget [] (List.replicate 1000 98) =
      (prepareTarget (List.replicate 1000 98), []) ∧
    ((getPreparedSearch [] [97]).1 = prepareSearch [97] ∧
      cacheLookup [97] (getPreparedSearch [] [97]).2 =
        some (prepareSearch [97]) ∧
      getPreparedSearch (getPreparedSearch [] [97]).2 [97] =
        (prepareSearch [97], (getPreparedSearch [] [97]).2)) ∧
    getPreparedSearch [] (List.replicate 1000 97) =
      (prepareSearch (List.replicate 1000 97), []) :=
  ⟨(prepared_caching [] [] [98] [97]).1 (by decide) rfl,
    (prepared_caching [] [] (List.replicate 1000 98) [97]).2.1
      (by simp [MAX_TARGET_STRING_LENGTH_FOR_CACHING]),
    (prepared_caching [] [] [98] [97]).2.2.1 (by decide) rfl,
    (prepared_caching [] [] [98] (List.replicate 1000 97)).2.2.2
      (by simp [MAX_SEARCH_STRING_LENGTH_FOR_CACHING])⟩

/-- Word-beginning condition of the spec at position `k`, by random
access: the character at `k` is uppercase and the previous one is not,
or the previous one is not alphanumeric, or the character at `k` is not
alphanumeric; `wasUpper` / `wasAlphanum` classify the virtual
predecessor of position 0 (`false` at the top level). -/
def beginFlag (codes : List Nat) (wasUpper wasAlphanum : Bool) (k : Nat) :
    Bool :=
  let c := codes.getD k 0
  let prevUpper := if k = 0 then wasUpper else isUpperCode (codes.getD (k - 1) 0)
  let prevAlphanum :=
    if k = 0 then wasAlphanum else isAlphanumCode (codes.getD (k - 1) 0)
  (isUpperCode c && !prevUpper) || !prevAlphanum || !isAlphanumCode c

/-- Shifting `beginFlag` past the head of the list updates the virtual
predecessor to the head's classification. -/
theorem beginFlag_cons_succ (c : Nat) (rest : List Nat) (u a : Bool) (k : Nat) :
    beginFlag (c :: rest) u a (k + 1) =
      beginFlag rest (isUpperCode c) (isAlphanumCode c) k := by
  cases k with
  | zero => simp [beginFlag]
  | succ m => simp [beginFlag]

/-- The scan of `prepareBeginningIndexesAux` records exactly the
positions whose `beginFlag` holds, offset by the start index. -/
theorem mem_prepareBeginningIndexesAux :
    ∀ (codes : List Nat) (i0 : Nat) (u a : Bool) (j : Nat),
      j ∈ prepareBeginningIndexesAux codes i0 u a ↔
        ∃ k, k < codes.length ∧ j = i0 + k ∧ beginFlag codes u a k = true := by
  intro codes
  induction codes with
  | nil => intro i0 u a j; simp [prepareBeginningIndexesAux]
  | cons c rest ih =>
    intro i0 u a j
    simp only [prepareBeginningIndexesAux]
    by_cases hb : ((isUpperCode c && !u) || !a || !isAlphanumCode c) = true
    · rw [if_pos hb]
      simp only [List.mem_cons, ih]
      constructor
      · rintro (rfl | ⟨k, hk, rfl, hflag⟩)
        · refine ⟨0, Nat.succ_pos _, by omega, ?_⟩
          simpa [beginFlag] using hb
        · refine ⟨k + 1, by simpa using Nat.succ_lt_succ hk, by omega, ?_⟩
          rw [beginFlag_cons_succ]; exact hflag
      · rintro ⟨k, hk, rfl, hflag⟩
        cases k with
        | zero => left; omega
        | succ m =>
          right
          refine ⟨m, by simp only [List.length_cons] at hk; omega, by omega, ?_⟩
          rw [← beginFlag_cons_succ c rest u a m]; exact hflag
    · rw [if_neg hb]
      rw [ih]
      constructor
      · rintro ⟨k, hk, rfl, hflag⟩
        refine ⟨k + 1, by simp only [List.length_cons]; omega, by omega, ?_⟩
        rw [beginFlag_cons_succ]; exact hflag
      · rintro ⟨k, hk, rfl, hflag⟩
        cases k with
        | zero =>
          exact absurd (by simpa [beginFlag] using hflag) hb
        | succ m =>
          refine ⟨m, by simp only [List.length_cons] at hk; omega, by omega, ?_⟩
          rw [← beginFlag_cons_succ c rest u a m]; exact hflag

/-- The recorded beginning positions are strictly increasing. -/
theorem pairwise_prepareBeginningIndexesAux :
    ∀ (codes : List Nat) (i0 : Nat) (u a : Bool),
      (prepareBeginningIndexesAux codes i0 u a).Pairwise (· < ·) := by
  intro codes
  induction codes with
  | nil => intro i0 u a; simp [prepareBeginningIndexesAux]
  | cons c rest ih =>
    intro i0 u a
    simp only [prepareBeginningIndexesAux]
    by_cases hb : ((isUpperCode c && !u) || !a || !isAlphanumCode c) = true
    · rw [if_pos hb]
      refine List.pairwise_cons.mpr ⟨?_, ih _ _ _⟩
      intro y hy
      obtain ⟨k, -, rfl, -⟩ :=
        (mem_prepareBeginningIndexesAux rest (i0 + 1) _ _ y).mp hy
      omega
    · rw [if_neg hb]
      exact ih _ _ _

/-- Every recorded beginning position lies in `[i0, i0 + length)`. -/
theorem mem_prepareBeginningIndexesAux_bounds (codes : List Nat) (i0 : Nat)
    (u a : Bool) (x : Nat) (hx : x ∈ prepareBeginningIndexesAux codes i0 u a) :
    i0 ≤ x ∧ x < i0 + codes.length := by
  obtain ⟨k, hk, rfl, -⟩ :=
    (mem_prepareBeginningIndexesAux codes i0 u a x).mp hx
  omega

/-- Claim C5: a position is recorded as a word beginning exactly when
the character there is an ASCII capital whose predecessor is not a
capital, or the predecessor is not ASCII-alphanumeric, or the character
itself is not ASCII-alphanumeric, position 0 having a virtual
non-uppercase non-alphanumeric predecessor; consequently position 0 of
every non-empty string is a word beginning. -/
theorem beginningIndexes_characterization (codes : List Nat) (i : Nat)
    (h : i < codes.length) :
    (i ∈ prepareBeginningIndexes codes ↔ beginFlag codes false false i = true) ∧
    0 ∈ prepareBeginningIndexes codes := by
  constructor
  · rw [prepareBeginningIndexes, mem_prepareBeginningIndexesAux]
    constructor
    · rintro ⟨k, hk, rfl, hflag⟩
      simpa using hflag
    · intro hflag
      exact ⟨i, h, by omega, hflag⟩
  · rw [prepareBeginningIndexes, mem_prepareBeginningIndexesAux]
    refine ⟨0, by omega, by omega, ?_⟩
    simp [beginFlag]

/-- Closed instance of the beginning characterization at "aB": position
1 is a camelCase beginning and position 0 is always a beginning. -/
theorem beginningIndexes_characterization_witness :
    ((1 ∈ prepareBeginningIndexes [97, 66] ↔
        beginFlag [97, 66] false false 1 = true) ∧
      0 ∈ prepareBeginningIndexes [97, 66]) ∧
    beginFlag [97, 66] false false 1 = true :=
  ⟨beginningIndexes_characterization [97, 66] 1 (by decide), by decide⟩

/-- Next boundary strictly after `i` in the spec's sense: the first
listed beginning greater than `i`, defaulting to the string length. -/
def specNext (B : List Nat) (len i : Nat) : Nat :=
  (B.find? (fun b => decide (i < b))).getD len

/-- If the entry at index `n` exceeds `i` while every earlier entry is
at most `i`, then the first entry exceeding `i` is the one at `n`. -/
theorem find?_lt_eq_some (i : Nat) :
    ∀ (B : List Nat) (n b : Nat), B.get? n = some b → i < b →
      (∀ j bj, j < n → B.get? j = some bj → bj ≤ i) →
      B.find? (fun x => decide (i < x)) = some b := by
  intro B
  induction B with
  | nil => intro n b h; simp at h
  | cons c rest ih =>
    intro n b hget hib hbefore
    cases n with
    | zero =>
      have hcb : c = b := by simpa using hget
      subst hcb
      exact List.find?_cons_of_pos _ (by simpa using hib)
    | succ m =>
      have hc : c ≤ i := hbefore 0 c (Nat.succ_pos m) rfl
      rw [List.find?_cons_of_neg _ (by simpa using Nat.not_lt.mpr hc)]
      exact ih m b (by simpa using hget) hib
        (fun j bj hj hg => hbefore (j + 1) bj (Nat.succ_lt_succ hj)
          (by simpa using hg))

/-- On a strictly increasing list, the first entry exceeding `i` is the
least entry exceeding `i`. -/
theorem find?_lt_min (i : Nat) :
    ∀ (B : List Nat), B.Pairwise (· < ·) →
      ∀ v, B.find? (fun x => decide (i < x)) = some v →
        ∀ b ∈ B, i < b → v ≤ b := by
  intro B
  induction B with
  | nil => intro _ v h; simp at h
  | cons c rest ih =>
    intro hpw v hfind b hb hib
    obtain ⟨hhead, htail⟩ := List.pairwise_cons.mp hpw
    by_cases hc : i < c
    · rw [List.find?_cons_of_pos _ (by simpa using hc)] at hfind
      have hvc : v = c := by simpa using hfind.symm
      subst hvc
      rcases List.mem_cons.mp hb with rfl | hbr
      · exact Nat.le_refl _
      · exact Nat.le_of_lt (hhead b hbr)
    · rw [List.find?_cons_of_neg _ (by simpa using hc)] at hfind
      rcases List.mem_cons.mp hb with rfl | hbr
      · exact absurd hib hc
      · exact ih htail v hfind b hbr hib

/-- Entries of a strictly increasing list increase with their index. -/
theorem pairwise_lt_get? :
    ∀ (B : List Nat), B.Pairwise (· < ·) →
      ∀ m n bm bn, m < n → B.get? m = some bm → B.get? n = some bn →
        bm < bn := by
  intro B
  induction B with
  | nil => intro _ m n bm bn _ h; simp at h
  | cons c rest ih =>
    intro hpw m n bm bn hmn hm hn
    obtain ⟨hhead, htail⟩ := List.pairwise_cons.mp hpw
    cases m with
    | zero =>
      have hcm : c = bm := by simpa using hm
      subst hcm
      cases n with
      | zero => omega
      | succ k =>
        exact hhead bn (List.get?_mem (by simpa using hn))
    | succ a =>
      cases n with
      | zero => omega
      | succ k =>
        exact ih htail a k bm bn (by omega) (by simpa using hm)
          (by simpa using hn)

/-- A defined indexed read witnesses that the index is in range. -/
theorem get?_some_lt {l : List Nat} {n a : Nat} (h : l.get? n = some a) :
    n < l.length := by
  rcases Nat.lt_or_ge n l.length with h' | h'
  · exact h'
  · rw [List.get?_eq_none.mpr h'] at h
    cases h

/-- Invariant characterization of the `prepareNextBeginningIndexes`
loop: starting an iteration at position `i` with cursor `lastI` such
that every earlier listed beginning is below `i` and the current one
(if any) is at least `i`, the entry produced for position `i + k` is
the first listed beginning strictly greater than `i + k`, defaulting to
the string length. -/
theorem nextBegAux_get? (B : List Nat) (len : Nat)
    (hpw : B.Pairwise (· < ·)) :
    ∀ (rem i lastI : Nat),
      (∀ j bj, j < lastI → B.get? j = some bj → bj < i) →
      (∀ b, B.get? lastI = some b → i ≤ b) →
      ∀ k, k < rem →
        (nextBegAux B len rem i lastI (B.get? lastI)).get? k =
          some (specNext B len (i + k)) := by
  intro rem
  induction rem with
  | zero => intro i lastI _ _ k hk; omega
  | succ n ih =>
    intro i lastI hbefore hlast k hk
    cases hB : B.get? lastI with
    | some b =>
      have hib : i ≤ b := hlast b hB
      by_cases hlt : i < b
      · simp only [nextBegAux, if_pos hlt]
        cases k with
        | zero =>
          simp only [List.get?]
          have h1 : B.find? (fun x => decide (i < x)) = some b := by
            apply find?_lt_eq_some i B lastI b hB (by omega)
            intro j bj hj hg
            have := hbefore j bj hj hg
            omega
          simp [specNext, h1]
        | succ m =>
          simp only [List.get?]
          rw [← hB]
          have harith : i + (m + 1) = (i + 1) + m := by omega
          rw [harith]
          refine ih (i + 1) lastI ?_ ?_ m (by omega)
          · intro j bj hj hg
            have := hbefore j bj hj hg
            omega
          · intro b' hb'
            rw [hB] at hb'
            have := Option.some.inj hb'
            omega
      · have hbefore' : ∀ j bj, j < lastI + 1 → B.get? j = some bj → bj ≤ i := by
          intro j bj hj hg
          rcases Nat.lt_or_ge j lastI with hjl | hjl
          · have := hbefore j bj hjl hg
            omega
          · have hjeq : j = lastI := by omega
            subst hjeq
            rw [hB] at hg
            have := Option.some.inj hg
            omega
        simp only [nextBegAux, if_neg hlt]
        cases k with
        | zero =>
          simp only [List.get?]
          cases hB2 : B.get? (lastI + 1) with
          | some b' =>
            have hbb' : b < b' :=
              pairwise_lt_get? B hpw lastI (lastI + 1) b b' (by omega) hB hB2
            have h1 : B.find? (fun x => decide (i < x)) = some b' := by
              apply find?_lt_eq_some i B (lastI + 1) b' hB2 (by omega)
              intro j bj hj hg
              have := hbefore' j bj hj hg
              omega
            simp [specNext, h1]
          | none =>
            have h1 : B.find? (fun x => decide (i < x)) = none := by
              rw [List.find?_eq_none]
              intro x hx
              obtain ⟨jx, hjx⟩ := List.mem_iff_get?.mp hx
              have hjlen : jx < B.length := get?_some_lt hjx
              have hjlenB : B.length ≤ lastI + 1 := List.get?_eq_none.mp hB2
              have := hbefore' jx x (by omega) hjx
              simp only [decide_eq_true_eq]
              omega
            simp [specNext, h1]
        | succ m =>
          simp only [List.get?]
          have harith : i + (m + 1) = (i + 1) + m := by omega
          rw [harith]
          refine ih (i + 1) (lastI + 1) ?_ ?_ m (by omega)
          · intro j bj hj hg
            have := hbefore' j bj hj hg
            omega
          · intro b' hb'
            have := pairwise_lt_get? B hpw lastI (lastI + 1) b b' (by omega) hB hb'
            omega
    | none =>
      have hlenB : B.length ≤ lastI := List.get?_eq_none.mp hB
      have hB2 : B.get? (lastI + 1) = none :=
        List.get?_eq_none.mpr (by omega)
      have hall : ∀ x ∈ B, x < i := by
        intro x hx
        obtain ⟨jx, hjx⟩ := List.mem_iff_get?.mp hx
        have hjlen : jx < B.length := get?_some_lt hjx
        exact hbefore jx x (by omega) hjx
      simp only [nextBegAux]
      cases k with
      | zero =>
        simp only [List.get?]
        have h1 : B.find? (fun x => decide (i < x)) = none := by
          rw [List.find?_eq_none]
          intro x hx
          have := hall x hx
          simp only [decide_eq_true_eq]
          omega
        rw [hB2]
        simp [specNext, h1]
      | succ m =>
        simp only [List.get?]
        have harith : i + (m + 1) = (i + 1) + m := by omega
        rw [harith]
        refine ih (i + 1) (lastI + 1) ?_ ?_ m (by omega)
        · intro j bj hj hg
          have := hall bj (List.get?_mem hg)
          omega
        · intro b' hb'
          rw [hB2] at hb'
          cases hb'

/-- Entry `i` of the derived next-boundary sequence is the first listed
beginning strictly greater than `i`, defaulting to the string length. -/
theorem prepareNextBeginningIndexes_get? (codes : List Nat) (i : Nat)
    (h : i < codes.length) :
    (prepareNextBeginningIndexes codes).get? i =
      some (specNext (prepareBeginningIndexes codes) codes.length i) := by
  have hpw : (prepareBeginningIndexes codes).Pairwise (· < ·) :=
    pairwise_prepareBeginningIndexesAux codes 0 false false
  have hmain := nextBegAux_get? (prepareBeginningIndexes codes) codes.length hpw
    codes.length 0 0
    (fun j bj hj _ => absurd hj (Nat.not_lt_zero j))
    (fun b _ => Nat.zero_le b) i h
  simpa [prepareNextBeginningIndexes] using hmain

/-- Every listed beginning position is a valid string position. -/
theorem mem_prepareBeginningIndexes_lt (codes : List Nat) (x : Nat)
    (hx : x ∈ prepareBeginningIndexes codes) : x < codes.length := by
  have := mem_prepareBeginningIndexesAux_bounds codes 0 false false x hx
  omega

/-- Claim C10: for every position of a non-empty string, the derived
next-boundary entry is strictly greater than the position and at most
the string length — even at a position that is itself a word beginning
the entry points past it, never at the position itself. -/
theorem nextBeginningIndexes_entry_bounds (codes : List Nat) (i : Nat)
    (h : i < codes.length) :
    i < (prepareNextBeginningIndexes codes).getD i 0 ∧
    (prepareNextBeginningIndexes codes).getD i 0 ≤ codes.length := by
  have hget := prepareNextBeginningIndexes_get? codes i h
  have hgetD : (prepareNextBeginningIndexes codes).getD i 0 =
      specNext (prepareBeginningIndexes codes) codes.length i := by
    rw [List.getD_eq_get? (prepareNextBeginningIndexes codes) i 0, hget]
    rfl
  rw [hgetD]
  simp only [specNext]
  cases hf : (prepareBeginningIndexes codes).find? (fun b => decide (i < b)) with
  | some v =>
    have hv : i < v := by
      have := List.find?_some hf
      simpa using this
    have hvlt := mem_prepareBeginningIndexes_lt codes v
      (List.mem_of_find?_eq_some hf)
    simp only [Option.getD_some]
    omega
  | none =>
    simp only [Option.getD_none]
    omega

/-- Closed instance of the entry-bounds theorem at the one-character
string "a". -/
theorem nextBeginningIndexes_entry_bounds_witness :
    0 < (prepareNextBeginningIndexes [97]).getD 0 0 ∧
    (prepareNextBeginningIndexes [97]).getD 0 0 ≤ ([97] : List Nat).length :=
  nextBeginningIndexes_entry_bounds [97] 0 (by decide)

/-- Claim C4 is false as stated: for the one-character string "a",
position 0 is itself a word beginning — so the smallest boundary
at-or-after position 0 is 0 — yet the derived entry at position 0 is 1
(the string length), not 0. -/
theorem nextBeginningIndexes_geq_counterexample :
    0 ∈ prepareBeginningIndexes [97] ∧
    (prepareNextBeginningIndexes [97]).getD 0 0 = 1 ∧
    (prepareNextBeginningIndexes [97]).getD 0 0 ≠ 0 := by
  refine ⟨?_, ?_, ?_⟩ <;> decide

/-- Claim C4 (amended): for every string and every position `i` in
`[0, length)`, the derived entry at `i` is the smallest word-beginning
position strictly greater than `i`, or the string length if no boundary
after `i` exists. -/
theorem nextBeginningIndexes_strictly_next (codes : List Nat) (i : Nat)
    (h : i < codes.length) :
    ∃ v, (prepareNextBeginningIndexes codes).get? i = some v ∧
      ((v ∈ prepareBeginningIndexes codes ∧ i < v ∧
          ∀ b ∈ prepareBeginningIndexes codes, i < b → v ≤ b) ∨
        (v = codes.length ∧ ∀ b ∈ prepareBeginningIndexes codes, b ≤ i)) := by
  have hget := prepareNextBeginningIndexes_get? codes i h
  refine ⟨specNext (prepareBeginningIndexes codes) codes.length i, hget, ?_⟩
  have hpw : (prepareBeginningIndexes codes).Pairwise (· < ·) :=
    pairwise_prepareBeginningIndexesAux codes 0 false false
  simp only [specNext]
  cases hf : (prepareBeginningIndexes codes).find? (fun b => decide (i < b)) with
  | some v =>
    left
    simp only [Option.getD_some]
    have hv : i < v := by
      have := List.find?_some hf
      simpa using this
    refine ⟨List.mem_of_find?_eq_some hf, hv, ?_⟩
    exact fun b hb hib => find?_lt_min i _ hpw v hf b hb hib
  | none =>
    right
    simp only [Option.getD_none]
    refine ⟨trivial, ?_⟩
    intro b hb
    have := List.find?_eq_none.mp hf b hb
    simp only [decide_eq_true_eq] at this
    omega

/-- Closed instance of the amended next-boundary theorem at the
one-character string "a". -/
theorem nextBeginningIndexes_strictly_next_witness :
    ∃ v, (prepareNextBeginningIndexes [97]).get? 0 = some v ∧
      ((v ∈ prepareBeginningIndexes [97] ∧ 0 < v ∧
          ∀ b ∈ prepareBeginningIndexes [97], 0 < b → v ≤ b) ∨
        (v = ([97] : List Nat).length ∧
          ∀ b ∈ prepareBeginningIndexes [97], b ≤ 0)) :=
  nextBeginningIndexes_strictly_next [97] 0 (by decide)

end Fuzzysort
